import Mathlib

/-!
Verification of the rendering/editing core of the `eddy_tcell` split-pane
terminal editor (Go), against its natural-language specification.

The Go source is shallowly embedded: strings become `List Char`, Go `int`
becomes `Int` (with explicit clamping exactly where the source clamps),
`tcell` colors and styles become symbolic inductive values, and the effect
of an external process invocation is passed in as an explicit `Option`
oracle.  Every definition mirrors the function of the same name in the
source (`src/main.go` and the unnamed parts of the repository).
-/

namespace Eddy

/-- Character constant for the backtick rune (code point 96). -/
def bt : Char := Char.ofNat 96

/-- Character constant for the double-quote rune (code point 34). -/
def dq : Char := Char.ofNat 34

/-- Character constant for the backslash rune (code point 92). -/
def bs : Char := Char.ofNat 92

/-! ## TextBuffer: `getLines` / `setLines` / `clampCursor` -/

/-- Embeds `getLines` (part_000 lines 736-745): split the file content on
newline characters; empty content is represented as one empty line, and an
empty split result (impossible for `strings.Split`, but guarded in the
source) also yields one empty line. -/
def getLines (fileContent : List Char) : List (List Char) :=
  if fileContent = [] then [[]]
  else if fileContent.splitOn '\n' = [] then [[]]
  else fileContent.splitOn '\n'

/-- Embeds the content computation of `setLines` (part_000 lines 805-808):
join the lines with the newline character (`strings.Join(lines, "\n")`). -/
def setLinesContent (lines : List (List Char)) : List Char :=
  List.intercalate ['\n'] lines

theorem getLines_length_pos (c : List Char) : 0 < (getLines c).length := by
  unfold getLines
  split
  · simp
  · split
    · simp
    · exact List.length_pos.mpr (by assumption)

theorem getLines_ne_nil (c : List Char) : getLines c ≠ [] := by
  have := getLines_length_pos c
  exact List.length_pos.mp this

/-- Embeds `clampCursor` (part_000 lines 811-826): clamp `editY` into
`[0, len(lines)-1]` and `editX` into `[0, len(runes(line))]`, returning the
clamped `(editY, editX)` pair. -/
def clampCursor (fileContent : List Char) (editY editX : Int) : Int × Int :=
  let lines := getLines fileContent
  let y1 : Int := if editY < 0 then 0 else editY
  let y2 : Int := if y1 ≥ (lines.length : Int) then (lines.length : Int) - 1 else y1
  let lineRunes := lines.getD y2.toNat []
  let x1 : Int := if editX < 0 then 0 else editX
  let x2 : Int := if x1 > (lineRunes.length : Int) then (lineRunes.length : Int) else x1
  (y2, x2)

/-- After one clamp, the row index is within `[0, len(lines))`. -/
theorem clampCursor_row_range (c : List Char) (y x : Int) :
    0 ≤ (clampCursor c y x).1 ∧
      (clampCursor c y x).1 < ((getLines c).length : Int) := by
  have hlen : 0 < (getLines c).length := getLines_length_pos c
  unfold clampCursor
  constructor
  · dsimp only
    split
    · omega
    · split <;> omega
  · dsimp only
    split
    · omega
    · split <;> omega

/-- After one clamp, the column index is within `[0, len(runes(line))]` for
the clamped row. -/
theorem clampCursor_col_range (c : List Char) (y x : Int) :
    0 ≤ (clampCursor c y x).2 ∧
      (clampCursor c y x).2 ≤
        (((getLines c).getD (clampCursor c y x).1.toNat []).length : Int) := by
  unfold clampCursor
  constructor
  · dsimp only
    split
    · omega
    · split <;> omega
  · dsimp only
    split
    · split <;> omega
    · split <;> omega

/-- C5: `clampCursor` is idempotent — re-clamping the already clamped
position changes nothing, for every buffer content and every starting
position, including negative and out-of-range coordinates. -/
theorem clampCursor_idempotent (c : List Char) (y x : Int) :
    clampCursor c (clampCursor c y x).1 (clampCursor c y x).2 =
      clampCursor c y x := by
  obtain ⟨hy0, hy1⟩ := clampCursor_row_range c y x
  obtain ⟨hx0, hx1⟩ := clampCursor_col_range c y x
  set p := clampCursor c y x with hp
  show clampCursor c p.1 p.2 = p
  unfold clampCursor
  have h1 : ¬ p.1 < 0 := by omega
  have h2 : ¬ p.1 ≥ ((getLines c).length : Int) := by omega
  have h3 : ¬ p.2 < 0 := by omega
  simp only [h1, if_false, h2, h3]
  have h4 : ¬ p.2 > (((getLines c).getD p.1.toNat []).length : Int) := by omega
  simp only [h4, if_false]

/-- C4 counterexample: the round-trip law fails for the empty list of lines —
serializing `[]` gives empty content, which loads back as the one-empty-line
buffer `[[]]`, not `[]`. -/
theorem roundtrip_fails_on_nil :
    getLines (setLinesContent []) ≠ ([] : List (List Char)) := by
  decide

/-- Helper: if the serialized content is empty and the line list is nonempty,
the line list must be the single empty line. -/
theorem setLinesContent_eq_nil (lines : List (List Char)) (hne : lines ≠ [])
    (h : setLinesContent lines = []) : lines = [[]] := by
  match lines with
  | [] => exact absurd rfl hne
  | [a] =>
    simp only [setLinesContent, List.intercalate, List.intersperse,
      List.flatten, List.append_nil] at h
    simp [h]
  | a :: b :: rest =>
    simp only [setLinesContent, List.intercalate, List.intersperse] at h
    simp at h

/-- C4 (amended): for every nonempty list of lines, none containing an
embedded newline character, loading the serialization yields the list back:
`getLines (setLinesContent lines) = lines`. -/
theorem getLines_setLinesContent_roundtrip (lines : List (List Char))
    (hne : lines ≠ []) (hnl : ∀ l ∈ lines, '\n' ∉ l) :
    getLines (setLinesContent lines) = lines := by
  by_cases h : setLinesContent lines = []
  · have : lines = [[]] := setLinesContent_eq_nil lines hne h
    subst this
    simp [getLines, h]
  · unfold getLines
    rw [if_neg h]
    have hsplit : (setLinesContent lines).splitOn '\n' = lines :=
      List.splitOn_intercalate lines '\n' hnl hne
    simp only [hsplit]
    rw [if_neg hne]

/-- Witness for the amended C4 round-trip at a concrete two-line buffer. -/
theorem getLines_setLinesContent_roundtrip_witness :
    (["ab".toList, "c".toList] ≠ ([] : List (List Char))) ∧
      getLines (setLinesContent ["ab".toList, "c".toList]) =
        ["ab".toList, "c".toList] :=
  ⟨by decide,
    getLines_setLinesContent_roundtrip _ (by decide) (by decide)⟩

/-! ## External formatter invocation (`formatWithGofmt` / `formatWithGoimports`) -/

/-- Embeds `isGoFile` (src/main.go lines 356-358): the current file name ends
in `.go`. -/
def isGoFile (currentFile : List Char) : Bool :=
  decide (currentFile.drop (currentFile.length - 3) = ".go".toList)

/-- State touched by the formatter commands: the open file name, the buffer
content, and the modified flag. -/
structure FmtState where
  currentFile : List Char
  fileContent : List Char
  fileModified : Bool
deriving DecidableEq

/-- Embeds `formatWithGofmt` (src/main.go lines 190-209).  The outcome of the
single `gofmt` pipe invocation is passed in as an oracle: `none` models a
failed invocation (non-zero exit or missing executable, i.e. `cmd.Output()`
returned an error), `some out` models success with captured output `out`. -/
def formatWithGofmt (st : FmtState) (gofmtOutput : Option (List Char)) :
    FmtState :=
  if st.currentFile = [] ∨ isGoFile st.currentFile = false then st
  else
    match gofmtOutput with
    | none => st
    | some out => { st with fileContent := out, fileModified := true }

/-- Embeds `formatWithGoimports` (src/main.go lines 212-231), identical in
structure to `formatWithGofmt` but invoking `goimports`. -/
def formatWithGoimports (st : FmtState) (goimportsOutput : Option (List Char)) :
    FmtState :=
  if st.currentFile = [] ∨ isGoFile st.currentFile = false then st
  else
    match goimportsOutput with
    | none => st
    | some out => { st with fileContent := out, fileModified := true }

/-- C8: formatter atomicity.  When the single external invocation fails
(oracle `none`), the whole state — in particular the buffer content and the
modified flag — is returned exactly unchanged, for both formatters; the
captured output replaces the buffer (and sets the modified flag) only on a
successful invocation of a formatter that was actually run (named Go file). -/
theorem formatter_atomicity (st : FmtState) (out : List Char)
    (hname : st.currentFile ≠ []) (hgo : isGoFile st.currentFile = true) :
    formatWithGofmt st none = st ∧
      formatWithGoimports st none = st ∧
      formatWithGofmt st (some out) =
        { st with fileContent := out, fileModified := true } ∧
      formatWithGoimports st (some out) =
        { st with fileContent := out, fileModified := true } := by
  have hcond : ¬ (st.currentFile = [] ∨ isGoFile st.currentFile = false) := by
    simp [hname, hgo]
  refine ⟨?_, ?_, ?_, ?_⟩ <;> simp [formatWithGofmt, formatWithGoimports, hcond]

/-- Witness for C8 at a concrete state: editing `main.go` with content `a`,
a failed run leaves the state untouched and a successful run replaces the
content with `b`. -/
theorem formatter_atomicity_witness :
    formatWithGofmt ⟨"main.go".toList, "a".toList, false⟩ none =
        ⟨"main.go".toList, "a".toList, false⟩ ∧
      formatWithGoimports ⟨"main.go".toList, "a".toList, false⟩ none =
        ⟨"main.go".toList, "a".toList, false⟩ ∧
      formatWithGofmt ⟨"main.go".toList, "a".toList, false⟩ (some "b".toList) =
        ⟨"main.go".toList, "b".toList, true⟩ ∧
      formatWithGoimports ⟨"main.go".toList, "a".toList, false⟩
          (some "b".toList) =
        ⟨"main.go".toList, "b".toList, true⟩ :=
  formatter_atomicity ⟨"main.go".toList, "a".toList, false⟩ "b".toList
    (by decide) (by decide)

/-! ## Color parsing (`parseColor`, part_000 lines 249-310) -/

/-- ASCII whitespace test standing in for `unicode.IsSpace` as used by
`strings.TrimSpace` (all inputs relevant to color strings are ASCII). -/
def isSpaceChar (c : Char) : Bool :=
  c = ' ' || c = '\t' || c = '\n' || c = '\r' ||
    c = Char.ofNat 11 || c = Char.ofNat 12

/-- Embeds `strings.TrimSpace`: drop whitespace from both ends. -/
def trimSpace (s : List Char) : List Char :=
  ((s.dropWhile isSpaceChar).reverse.dropWhile isSpaceChar).reverse

/-- Embeds the decimal-digit test `r >= '0' && r <= '9'`. -/
def isDigitChar (c : Char) : Bool :=
  decide ('0'.toNat ≤ c.toNat ∧ c.toNat ≤ '9'.toNat)

/-- Hexadecimal-digit test, as accepted by `strconv.ParseUint(_, 16, 32)`. -/
def isHexDigit (c : Char) : Bool :=
  isDigitChar c ||
    decide ('a'.toNat ≤ c.toNat ∧ c.toNat ≤ 'f'.toNat) ||
    decide ('A'.toNat ≤ c.toNat ∧ c.toNat ≤ 'F'.toNat)

/-- Value of a hexadecimal digit (0 for non-digits, unused in that case). -/
def hexDigitVal (c : Char) : Nat :=
  if isDigitChar c then c.toNat - '0'.toNat
  else if decide ('a'.toNat ≤ c.toNat ∧ c.toNat ≤ 'f'.toNat) then
    c.toNat - 'a'.toNat + 10
  else if decide ('A'.toNat ≤ c.toNat ∧ c.toNat ≤ 'F'.toNat) then
    c.toNat - 'A'.toNat + 10
  else 0

/-- Value of a hexadecimal digit string (most significant digit first). -/
def hexVal (s : List Char) : Nat :=
  s.foldl (fun a c => a * 16 + hexDigitVal c) 0

/-- Embeds `strconv.ParseUint(s, 16, 32)`: succeeds exactly on nonempty
all-hex strings whose value fits in 32 bits. -/
def parseHex (s : List Char) : Option Nat :=
  if s ≠ [] ∧ s.all isHexDigit ∧ hexVal s < 2 ^ 32 then some (hexVal s)
  else none

/-- Embeds `strconv.Atoi`: an optional sign followed by at least one decimal
digit, succeeding exactly when the value fits in a signed 64-bit integer. -/
def atoi (s : List Char) : Option Int :=
  let p : Bool × List Char :=
    match s with
    | c :: r => if c = '+' then (false, r) else if c = '-' then (true, r)
                else (false, s)
    | [] => (false, s)
  if p.2 ≠ [] ∧ p.2.all isDigitChar then
    let n : Nat := p.2.foldl (fun a c => a * 10 + (c.toNat - '0'.toNat)) 0
    let v : Int := if p.1 then -(n : Int) else (n : Int)
    if -(2 ^ 63 : Int) ≤ v ∧ v ≤ 2 ^ 63 - 1 then some v else none
  else none

/-- Symbolic model of `tcell.Color` values that `parseColor` can return:
the terminal default, a 24-bit truecolor from `tcell.NewRGBColor`, a raw
palette index from the `tcell.Color(n)` conversion, and the fixed named
color constants. -/
inductive TColor
  | default
  | rgb (r g b : Int)
  | palette (n : Int)
  | black
  | red
  | green
  | yellow
  | blue
  | purple
  | teal
  | white
  | grey
deriving DecidableEq

/-- Truecolor from a 24-bit value, as `tcell.NewRGBColor(int32((v>>16)&0xFF),
int32((v>>8)&0xFF), int32(v&0xFF))`. -/
def rgbOfVal (v : Nat) : TColor :=
  .rgb ((v / 65536 % 256 : Nat) : Int) ((v / 256 % 256 : Nat) : Int)
    ((v % 256 : Nat) : Int)

/-- Truecolor from a 6-digit hexadecimal string. -/
def rgbOfHex (hex : List Char) : TColor :=
  rgbOfVal (hexVal hex)

/-- Embeds the fixed color-name table at the end of `parseColor`
(`switch lower { ... }`), with `.default` for an unmatched name. -/
def nameColor (lower : List Char) : TColor :=
  if lower = "black".toList then .black
  else if lower = "red".toList then .red
  else if lower = "green".toList then .green
  else if lower = "yellow".toList then .yellow
  else if lower = "blue".toList then .blue
  else if lower = "magenta".toList ∨ lower = "purple".toList then .purple
  else if lower = "cyan".toList ∨ lower = "teal".toList then .teal
  else if lower = "white".toList then .white
  else if lower = "gray".toList ∨ lower = "grey".toList then .grey
  else .default

/-- Embeds `parseColor` (part_000 lines 249-310): trim, sentinel check,
hex (`#RGB` doubled to `#RRGGBB`, or `#RRGGBB` directly, falling through on
parse failure), then integer palette index, then the name table, then the
terminal default. -/
def parseColor (s0 : List Char) : TColor :=
  let s := trimSpace s0
  if s = [] then .default
  else
    let lower := s.map Char.toLower
    if lower = "default".toList ∨ lower = "terminal".toList ∨
        lower = "none".toList ∨ lower = "transparent".toList then .default
    else
      let hexRes : Option TColor :=
        if s.head? = some '#' then
          let hex0 := s.tail
          let hex := if hex0.length = 3 then hex0.flatMap (fun c => [c, c])
                     else hex0
          if hex.length = 6 then (parseHex hex).map rgbOfVal else none
        else none
      match hexRes with
      | some col => col
      | none =>
        match atoi s with
        | some n => .palette n
        | none => nameColor lower

/-- Integer parse accepting only non-negative values, as the claim's
reference parser words it ("parseable as a non-negative integer"). -/
def atoiNonneg (s : List Char) : Option Int :=
  match atoi s with
  | some n => if 0 ≤ n then some n else none
  | none => none

/-- Modelled from the spec (§4.3): the reference color parser exactly as the
claim words it — no trimming is mentioned, and only strings parseable as a
non-negative integer become palette indices; everything unrecognized is the
terminal default. -/
def parseColorSpec (s : List Char) : TColor :=
  if s = [] then .default
  else
    let lower := s.map Char.toLower
    if lower = "default".toList ∨ lower = "terminal".toList ∨
        lower = "none".toList ∨ lower = "transparent".toList then .default
    else if s.head? = some '#' ∧ s.tail.length = 3 ∧ s.tail.all isHexDigit then
      rgbOfHex (s.tail.flatMap (fun c => [c, c]))
    else if s.head? = some '#' ∧ s.tail.length = 6 ∧ s.tail.all isHexDigit then
      rgbOfHex s.tail
    else
      match atoiNonneg s with
      | some n => .palette n
      | none => nameColor lower

/-- Modelled from the spec (§4.3), amended: the reference color parser with
the two corrections the code forces — the input is first trimmed of
surrounding whitespace, and any string parseable as a signed 64-bit integer
(negative values included) becomes a palette index. -/
def parseColorSpecAmended (s0 : List Char) : TColor :=
  let s := trimSpace s0
  if s = [] then .default
  else
    let lower := s.map Char.toLower
    if lower = "default".toList ∨ lower = "terminal".toList ∨
        lower = "none".toList ∨ lower = "transparent".toList then .default
    else if s.head? = some '#' ∧ s.tail.length = 3 ∧ s.tail.all isHexDigit then
      rgbOfHex (s.tail.flatMap (fun c => [c, c]))
    else if s.head? = some '#' ∧ s.tail.length = 6 ∧ s.tail.all isHexDigit then
      rgbOfHex s.tail
    else
      match atoi s with
      | some n => .palette n
      | none => nameColor lower

theorem flatMap_dup_length (t : List Char) :
    (t.flatMap fun c => [c, c]).length = 2 * t.length := by
  induction t with
  | nil => simp
  | cons c t ih =>
    simp only [List.flatMap_cons, List.length_append, List.length_cons,
      List.length_nil, ih]
    omega

theorem flatMap_dup_all (p : Char → Bool) (t : List Char) :
    (t.flatMap fun c => [c, c]).all p = t.all p := by
  induction t with
  | nil => rfl
  | cons c t ih => simp [ih, Bool.and_self, Bool.and_assoc]

theorem hexDigitVal_lt (c : Char) : hexDigitVal c < 16 := by
  unfold hexDigitVal isDigitChar
  split_ifs with h1 h2 h3 <;> simp_all <;> omega

theorem hexVal_foldl_lt (t : List Char) :
    ∀ acc : Nat, t.foldl (fun a c => a * 16 + hexDigitVal c) acc <
      (acc + 1) * 16 ^ t.length := by
  induction t with
  | nil => intro acc; simp
  | cons c t ih =>
    intro acc
    have h1 := ih (acc * 16 + hexDigitVal c)
    have h2 := hexDigitVal_lt c
    simp only [List.foldl_cons, List.length_cons, pow_succ]
    refine lt_of_lt_of_le h1 ?_
    have h3 : acc * 16 + hexDigitVal c + 1 ≤ (acc + 1) * 16 := by omega
    calc (acc * 16 + hexDigitVal c + 1) * 16 ^ t.length
        ≤ ((acc + 1) * 16) * 16 ^ t.length := Nat.mul_le_mul_right _ h3
      _ = (acc + 1) * (16 ^ t.length * 16) := by ring

theorem hexVal_lt (t : List Char) : hexVal t < 16 ^ t.length := by
  have := hexVal_foldl_lt t 0
  simpa [hexVal] using this

theorem atoi_hash_none (r : List Char) : atoi ('#' :: r) = none := by
  simp [atoi, isDigitChar]

/-- C3 (amended): `parseColor` equals the reference parser of §4.3 once that
parser is amended to (a) trim surrounding whitespace first and (b) accept any
string parseable as a signed 64-bit integer (sign included) as a palette
index. -/
theorem parseColor_eq_specAmended (s : List Char) :
    parseColor s = parseColorSpecAmended s := by
  simp only [parseColor, parseColorSpecAmended]
  set u := trimSpace s with hu
  clear_value u
  cases u with
  | nil => simp
  | cons c t =>
    rw [if_neg (List.cons_ne_nil c t), if_neg (List.cons_ne_nil c t)]
    by_cases hsent : ((c :: t).map Char.toLower = "default".toList ∨
        (c :: t).map Char.toLower = "terminal".toList ∨
        (c :: t).map Char.toLower = "none".toList ∨
        (c :: t).map Char.toLower = "transparent".toList)
    · rw [if_pos hsent, if_pos hsent]
    · by_cases hc : c = '#'
      · subst hc
        by_cases h3 : t.length = 3
        · by_cases hall : t.all isHexDigit
          · have hlen : (t.flatMap fun x => [x, x]).length = 6 := by
              rw [flatMap_dup_length, h3]
            have hne : (t.flatMap fun x => [x, x]) ≠ [] := by
              intro h
              rw [h] at hlen
              simp at hlen
            have hall2 : (t.flatMap fun x => [x, x]).all isHexDigit = true := by
              rw [flatMap_dup_all]
              exact hall
            have hv : hexVal (t.flatMap fun x => [x, x]) < 2 ^ 32 := by
              have := hexVal_lt (t.flatMap fun x => [x, x])
              rw [hlen] at this
              omega
            simp only [List.head?_cons, List.tail_cons]
            simp [hsent, h3, hlen, parseHex, hne, hall2, hv, rgbOfHex, hall]
            rw [if_pos (show hexVal (t.flatMap fun c => [c, c]) < 4294967296
              by omega)]
          · have hall2 : (t.flatMap fun x => [x, x]).all isHexDigit = false := by
              rw [flatMap_dup_all]
              simpa using hall
            simp [hsent, h3, parseHex, hall2, hall, atoi_hash_none]
        · by_cases h6 : t.length = 6
          · by_cases hall : t.all isHexDigit
            · have hv : hexVal t < 2 ^ 32 := by
                have := hexVal_lt t
                rw [h6] at this
                omega
              have hne : t ≠ [] := by
                intro h
                rw [h] at h6
                simp at h6
              simp [hsent, h3, h6, parseHex, hne, hall, hv, rgbOfHex]
              rw [if_pos (show hexVal t < 4294967296 by omega)]
            · simp [hsent, h3, h6, parseHex, hall, atoi_hash_none]
          · simp [hsent, h3, h6, atoi_hash_none]
      · have hsome : ¬ (some c = some '#') := by simp [hc]
        simp only [List.head?_cons, List.tail_cons]
        rw [if_neg hsent, if_neg hsent, if_neg hsome,
          if_neg (fun h => hsome h.1), if_neg (fun h => hsome h.1)]

/-- C3 counterexample: on the input `"-5"` the code and the claim's
reference parser disagree — the code's `strconv.Atoi` accepts the negative
integer and returns the raw palette color `tcell.Color(-5)`, while the
reference parser maps it to the terminal default. -/
theorem parseColor_differs_from_spec_on_negative :
    parseColor ("-5".toList) = TColor.palette (-5) ∧
      parseColorSpec ("-5".toList) = TColor.default ∧
      parseColor ("-5".toList) ≠ parseColorSpec ("-5".toList) := by
  refine ⟨by decide, by decide, by decide⟩

/-! ## Editing operations (part_000 `handleKey`, lines 1387-1618) -/

/-- Editor state touched by the text-mutating key handlers: buffer content,
cursor position in rune units, and the modified flag. -/
structure EdState where
  fileContent : List Char
  editX : Int
  editY : Int
  fileModified : Bool
deriving DecidableEq

/-- Embeds `setLines` (part_000 lines 805-808) at the state level: join the
lines into the content and set the modified flag. -/
def setLines (st : EdState) (lines : List (List Char)) : EdState :=
  { st with fileContent := setLinesContent lines, fileModified := true }

/-- Embeds the `doBackspace` closure of `handleKey` (part_000 lines
1388-1422), without the trailing `ensureCursorVisible` call, which only
adjusts scroll offsets.  At column > 0 the character before the cursor is
removed; at column 0 of a non-first line the line is merged into the
previous one. -/
def doBackspace (st : EdState) : EdState :=
  let lines := getLines st.fileContent
  if lines.length = 0 then
    { (setLines st [[]]) with
        editY := 0
        editX := 0 }
  else
    let line := lines.getD st.editY.toNat []
    if st.editX > 0 then
      if st.editX ≤ (line.length : Int) then
        let newLine := line.take (st.editX - 1).toNat ++ line.drop st.editX.toNat
        { (setLines st (lines.set st.editY.toNat newLine)) with
            editX := st.editX - 1 }
      else st
    else if st.editY > 0 then
      let prev := lines.getD (st.editY - 1).toNat []
      let lines2 := lines.set (st.editY - 1).toNat (prev ++ line)
      let newLines := lines2.take st.editY.toNat ++
        lines2.drop (st.editY.toNat + 1)
      { (setLines st newLines) with
          editY := st.editY - 1
          editX := (prev.length : Int) }
    else st

/-- Embeds the `doDelete` closure of `handleKey` (part_000 lines 1424-1447),
without the trailing `ensureCursorVisible` call.  Before end-of-line the
character under the cursor is removed; at end-of-line of a non-last line the
next line is joined upward. -/
def doDelete (st : EdState) : EdState :=
  let lines := getLines st.fileContent
  if lines.length = 0 then st
  else
    let line := lines.getD st.editY.toNat []
    if st.editX < (line.length : Int) then
      let newLine := line.take st.editX.toNat ++ line.drop (st.editX.toNat + 1)
      setLines st (lines.set st.editY.toNat newLine)
    else if st.editY < (lines.length : Int) - 1 then
      let next := lines.getD (st.editY.toNat + 1) []
      let lines2 := lines.set st.editY.toNat (line ++ next)
      let newLines := lines2.take (st.editY.toNat + 1) ++
        lines2.drop (st.editY.toNat + 2)
      setLines st newLines
    else st

/-- Embeds the Enter handler of `handleKey` (part_000 lines 1560-1579):
split the current line at the cursor, keeping the left part in place and
inserting the right part as a new following line. -/
def doEnter (st : EdState) : EdState :=
  let lines := getLines st.fileContent
  let line := lines.getD st.editY.toNat []
  let left := line.take st.editX.toNat
  let right := line.drop st.editX.toNat
  let lines2 := lines.set st.editY.toNat left
  let newLines := lines2.take (st.editY.toNat + 1) ++ [right] ++
    lines2.drop (st.editY.toNat + 1)
  { (setLines st newLines) with
      editY := st.editY + 1
      editX := 0 }

/-- Embeds the character-insertion handler of `handleKey` (part_000 lines
1594-1615): clamp `editX` into the current line, insert the rune at the
cursor, and advance the cursor. -/
def doInsertRune (st : EdState) (r : Char) : EdState :=
  let lines0 := getLines st.fileContent
  let lines := if lines0.length = 0 then [[]] else lines0
  let line := lines.getD st.editY.toNat []
  let x0 : Int := if st.editX < 0 then 0 else st.editX
  let x : Int := if x0 > (line.length : Int) then (line.length : Int) else x0
  let newLine := line.take x.toNat ++ [r] ++ line.drop x.toNat
  { (setLines st (lines.set st.editY.toNat newLine)) with editX := x + 1 }

/-- The Position invariant of §3 for an editor state: the cursor row indexes
an existing line and the cursor column is between 0 and that line's rune
count. -/
def posInvariant (st : EdState) : Prop :=
  0 ≤ st.editY ∧ st.editY < ((getLines st.fileContent).length : Int) ∧
    0 ≤ st.editX ∧
    st.editX ≤ (((getLines st.fileContent).getD st.editY.toNat []).length : Int)

instance (st : EdState) : Decidable (posInvariant st) := by
  unfold posInvariant
  infer_instance

/-- C6 counterexample: backspace at the very start of the buffer (`"a"`,
cursor at row 0, column 0) is a no-op that leaves the modified flag clear,
so not every backspace sets the modified flag. -/
theorem backspace_at_origin_not_modified :
    doBackspace ⟨"a".toList, 0, 0, false⟩ = ⟨"a".toList, 0, 0, false⟩ ∧
      (doBackspace ⟨"a".toList, 0, 0, false⟩).fileModified = false := by
  refine ⟨by decide, by decide⟩

/-- C6 (amended): after every buffer-mutating key operation the buffer still
contains at least one line, and the modified flag is set, except in the two
boundary no-ops: backspace at position (0,0) and forward delete at the very
end of the buffer, both of which leave the whole state (flag included)
unchanged. -/
theorem buffer_ops_invariant (st : EdState) (r : Char)
    (hinv : posInvariant st) :
    0 < (getLines (doInsertRune st r).fileContent).length ∧
    0 < (getLines (doEnter st).fileContent).length ∧
    0 < (getLines (doBackspace st).fileContent).length ∧
    0 < (getLines (doDelete st).fileContent).length ∧
    (doInsertRune st r).fileModified = true ∧
    (doEnter st).fileModified = true ∧
    (st.editX = 0 ∧ st.editY = 0 → doBackspace st = st) ∧
    (¬ (st.editX = 0 ∧ st.editY = 0) →
      (doBackspace st).fileModified = true) ∧
    (st.editX = (((getLines st.fileContent).getD st.editY.toNat []).length : Int) ∧
        st.editY = ((getLines st.fileContent).length : Int) - 1 →
      doDelete st = st) ∧
    (¬ (st.editX = (((getLines st.fileContent).getD st.editY.toNat []).length : Int) ∧
        st.editY = ((getLines st.fileContent).length : Int) - 1) →
      (doDelete st).fileModified = true) := by
  obtain ⟨hy0, hy1, hx0, hx1⟩ := hinv
  have hlen := getLines_length_pos st.fileContent
  refine ⟨getLines_length_pos _, getLines_length_pos _, getLines_length_pos _,
    getLines_length_pos _, ?_, ?_, ?_, ?_, ?_, ?_⟩
  · simp [doInsertRune, setLines]
  · simp [doEnter, setLines]
  · rintro ⟨hx, hy⟩
    unfold doBackspace
    rw [if_neg (by omega)]
    rw [if_neg (by omega), if_neg (by omega)]
  · intro hne
    unfold doBackspace
    rw [if_neg (by omega)]
    by_cases hx : st.editX > 0
    · rw [if_pos hx, if_pos hx1]
      simp [setLines]
    · have hy : st.editY > 0 := by omega
      rw [if_neg hx, if_pos hy]
      simp [setLines]
  · rintro ⟨hx, hy⟩
    unfold doDelete
    rw [if_neg (by omega)]
    rw [if_neg (by omega), if_neg (by omega)]
  · intro hne
    unfold doDelete
    rw [if_neg (by omega)]
    by_cases hx : st.editX < (((getLines st.fileContent).getD st.editY.toNat []).length : Int)
    · rw [if_pos hx]
      simp [setLines]
    · have hy : st.editY < ((getLines st.fileContent).length : Int) - 1 := by
        omega
      rw [if_neg hx, if_pos hy]
      simp [setLines]

/-- Witness for the amended C6 at a concrete two-line buffer with the cursor
inside the first line. -/
theorem buffer_ops_invariant_witness :
    posInvariant ⟨"ab\ncd".toList, 1, 0, false⟩ ∧
      (doInsertRune ⟨"ab\ncd".toList, 1, 0, false⟩ 'x').fileModified = true ∧
      (doBackspace ⟨"ab\ncd".toList, 1, 0, false⟩).fileModified = true := by
  have h := buffer_ops_invariant ⟨"ab\ncd".toList, 1, 0, false⟩ 'x' (by decide)
  exact ⟨by decide, h.2.2.2.2.1, h.2.2.2.2.2.2.2.1 (by decide)⟩

/-! ## ViewportCursor (`runesDisplayWidth` / `ensureCursorVisible`) -/

/-- Modelled from the spec (§4.2): fixed per-rune display width, standing in
for the external `go-runewidth` library (`runewidth.RuneWidth`) — 0 for
zero-width marks, 2 for wide East-Asian glyphs, 1 otherwise.  Only
representative ranges of the library's tables are included; the development
depends only on every width being at most 2. -/
def runeWidth (c : Char) : Nat :=
  if 0x300 ≤ c.toNat ∧ c.toNat ≤ 0x36F then 0
  else if 0x200B ≤ c.toNat ∧ c.toNat ≤ 0x200F then 0
  else if 0x1100 ≤ c.toNat ∧ c.toNat ≤ 0x115F then 2
  else if 0x2E80 ≤ c.toNat ∧ c.toNat ≤ 0x9FFF then 2
  else if 0xAC00 ≤ c.toNat ∧ c.toNat ≤ 0xD7A3 then 2
  else if 0xF900 ≤ c.toNat ∧ c.toNat ≤ 0xFAFF then 2
  else if 0xFE30 ≤ c.toNat ∧ c.toNat ≤ 0xFE4F then 2
  else if 0xFF00 ≤ c.toNat ∧ c.toNat ≤ 0xFF60 then 2
  else if 0xFFE0 ≤ c.toNat ∧ c.toNat ≤ 0xFFE6 then 2
  else 1

theorem runeWidth_le_two (c : Char) : runeWidth c ≤ 2 := by
  unfold runeWidth
  split_ifs <;> omega

/-- Display width of the first `k` runes (natural-number index form). -/
def dwN (runes : List Char) (k : Nat) : Nat :=
  ((runes.take k).map runeWidth).sum

/-- Embeds `runesDisplayWidth` (part_000 lines 829-841): sum of the display
widths of the first `upto` runes; `upto ≤ 0` gives 0 and `upto` beyond the
rune count is clamped to it (both exactly as the source clamps). -/
def runesDisplayWidth (runes : List Char) (upto : Int) : Nat :=
  dwN runes upto.toNat

theorem dwN_mono (runes : List Char) {k m : Nat} (h : k ≤ m) :
    dwN runes k ≤ dwN runes m := by
  unfold dwN
  induction runes generalizing k m with
  | nil => simp
  | cons c t ih =>
    cases k with
    | zero => simp
    | succ k2 =>
      cases m with
      | zero => omega
      | succ m2 =>
        simp only [List.take_succ_cons, List.map_cons, List.sum_cons]
        exact Nat.add_le_add_left (ih (Nat.le_of_succ_le_succ h)) _

theorem dwN_step (runes : List Char) (k : Nat) :
    dwN runes (k + 1) ≤ dwN runes k + 2 := by
  unfold dwN
  induction runes generalizing k with
  | nil => simp
  | cons c t ih =>
    cases k with
    | zero =>
      have := runeWidth_le_two c
      simp only [List.take_succ_cons, List.take_zero, List.map_cons,
        List.map_nil, List.sum_cons, List.sum_nil]
      have h2 : ((t.take 0).map runeWidth).sum = 0 := by simp
      omega
    | succ k2 =>
      simp only [List.take_succ_cons, List.map_cons, List.sum_cons]
      have := ih k2
      omega

/-- Embeds the backward search loop of `ensureCursorVisible` (part_000 lines
884-892): starting from the cursor rune index, decrement the candidate while
the display width up to it exceeds the target `cursorDisp - editorWidth + 1`,
stopping at 0. -/
def scrollBackLoop (runes : List Char) (target : Int) : Nat → Nat
  | 0 => 0
  | n + 1 =>
    if (dwN runes (n + 1) : Int) ≤ target then n + 1
    else scrollBackLoop runes target n

theorem scrollBackLoop_le (runes : List Char) (target : Int) (n : Nat) :
    scrollBackLoop runes target n ≤ n := by
  induction n with
  | zero => simp [scrollBackLoop]
  | succ n ih =>
    unfold scrollBackLoop
    split
    · omega
    · omega

theorem scrollBackLoop_dw_le (runes : List Char) (target : Int) (n : Nat)
    (ht : 0 ≤ target) :
    (dwN runes (scrollBackLoop runes target n) : Int) ≤ target := by
  induction n with
  | zero => simpa [scrollBackLoop, dwN] using ht
  | succ n ih =>
    unfold scrollBackLoop
    split
    · assumption
    · exact ih

theorem scrollBackLoop_dw_ge (runes : List Char) (target : Int) (n : Nat)
    (h : target - 1 ≤ (dwN runes n : Int)) :
    target - 1 ≤ (dwN runes (scrollBackLoop runes target n) : Int) := by
  induction n with
  | zero => simpa [scrollBackLoop, dwN] using h
  | succ n ih =>
    unfold scrollBackLoop
    split
    · exact h
    · rename_i hgt
      have hstep := dwN_step runes n
      exact ih (by omega)

/-- Embeds the vertical scroll rule of `ensureCursorVisible` (part_000 lines
856-860). -/
def vScroll (editY scrollY h : Int) : Int :=
  if editY < scrollY then editY
  else if editY ≥ scrollY + h then editY - h + 1
  else scrollY

/-- Embeds the horizontal scroll rule of `ensureCursorVisible` (part_000
lines 874-893), computed against the current line's runes. -/
def hScroll (runes : List Char) (editX scrollX w : Int) : Int :=
  let cursorDisp : Int := runesDisplayWidth runes editX
  let scrollDisp : Int := runesDisplayWidth runes scrollX
  if cursorDisp < scrollDisp then editX
  else if cursorDisp ≥ scrollDisp + w then
    (if editX < 0 then editX
     else (scrollBackLoop runes (cursorDisp - w + 1) editX.toNat : Int))
  else scrollX

/-- Embeds `ensureCursorVisible` (part_000 lines 844-902), parametrized by
the effective editor width and height the source computes from the screen
size (then clamps to at least 1); returns the updated `(scrollX, scrollY)`
pair.  The out-of-range early return clamps only a negative `scrollX`,
exactly as the source does. -/
def ensureCursorVisible (lines : List (List Char)) (editX editY : Int)
    (scrollX scrollY : Int) (editorWidth0 editorHeight0 : Int) : Int × Int :=
  let w : Int := if editorWidth0 < 1 then 1 else editorWidth0
  let h : Int := if editorHeight0 < 1 then 1 else editorHeight0
  let scrollY1 : Int := vScroll editY scrollY h
  if editY < 0 ∨ editY ≥ (lines.length : Int) then
    (if scrollX < 0 then 0 else scrollX, scrollY1)
  else
    let runes := lines.getD editY.toNat []
    let scrollX1 : Int := hScroll runes editX scrollX w
    (if scrollX1 < 0 then 0 else scrollX1,
      if scrollY1 < 0 then 0 else scrollY1)

theorem vScroll_bounds (editY scrollY h : Int) (hh : 1 ≤ h) (hy : 0 ≤ editY) :
    (if vScroll editY scrollY h < 0 then 0 else vScroll editY scrollY h) ≤
        editY ∧
      editY <
        (if vScroll editY scrollY h < 0 then 0 else vScroll editY scrollY h) +
          h := by
  unfold vScroll
  split_ifs <;> omega

theorem hScroll_nonneg_dw (runes : List Char) (x : Int) (hx : x < 0) :
    runesDisplayWidth runes x = 0 := by
  unfold runesDisplayWidth dwN
  have : x.toNat = 0 := by omega
  simp [this]

theorem hScroll_bounds (runes : List Char) (editX scrollX w : Int)
    (hw : 1 ≤ w) (hx0 : 0 ≤ editX) :
    (runesDisplayWidth runes
        (if hScroll runes editX scrollX w < 0 then 0
         else hScroll runes editX scrollX w) : Int) ≤
        runesDisplayWidth runes editX ∧
      (runesDisplayWidth runes editX : Int) ≤
        (runesDisplayWidth runes
          (if hScroll runes editX scrollX w < 0 then 0
           else hScroll runes editX scrollX w) : Int) + w := by
  unfold hScroll
  by_cases h1 : (runesDisplayWidth runes editX : Int) <
      runesDisplayWidth runes scrollX
  · rw [if_pos h1]
    rw [if_neg (by omega : ¬ editX < 0)]
    constructor
    · omega
    · omega
  · rw [if_neg h1]
    by_cases h2 : (runesDisplayWidth runes editX : Int) ≥
        (runesDisplayWidth runes scrollX : Int) + w
    · rw [if_pos h2, if_neg (by omega : ¬ editX < 0)]
      set target : Int :=
        (runesDisplayWidth runes editX : Int) - w + 1 with htarget
      set r : Nat := scrollBackLoop runes target editX.toNat with hr
      have hcast : ((r : Int)).toNat = r := by omega
      have hrx : r ≤ editX.toNat := scrollBackLoop_le runes target editX.toNat
      have hmono : dwN runes r ≤ dwN runes editX.toNat := dwN_mono runes hrx
      have hd : runesDisplayWidth runes editX = dwN runes editX.toNat := rfl
      have hge : target - 1 ≤ (dwN runes r : Int) := by
        apply scrollBackLoop_dw_ge
        rw [← hd]
        omega
      rw [if_neg (by omega : ¬ ((r : Nat) : Int) < 0)]
      have hrw : runesDisplayWidth runes ((r : Nat) : Int) = dwN runes r := by
        unfold runesDisplayWidth
        rw [hcast]
      rw [hrw]
      constructor
      · rw [hd]
        omega
      · omega
    · rw [if_neg h2]
      by_cases h3 : scrollX < 0
      · rw [if_pos h3]
        have h4 : runesDisplayWidth runes scrollX = 0 :=
          hScroll_nonneg_dw runes scrollX h3
        have h5 : runesDisplayWidth runes 0 = 0 := by
          unfold runesDisplayWidth dwN
          simp
        omega
      · rw [if_neg h3]
        omega

/-- C2 (amended): for every buffer, every cursor position satisfying the
Position invariant, and every effective editor width and height at least 1,
after `ensureCursorVisible` the vertical offset satisfies
`scrollY ≤ editY < scrollY + height`, and the cursor's display column lies
within the closed window `[scrollDisp, scrollDisp + width]` — the upper
bound is non-strict because a wide glyph straddling the window edge can
leave the cursor cell exactly one column past the window. -/
theorem ensureCursorVisible_bounds (lines : List (List Char))
    (editX editY scrollX scrollY w h : Int)
    (hy0 : 0 ≤ editY) (hy1 : editY < (lines.length : Int))
    (hx0 : 0 ≤ editX) (hw : 1 ≤ w) (hh : 1 ≤ h) :
    (ensureCursorVisible lines editX editY scrollX scrollY w h).2 ≤ editY ∧
      editY < (ensureCursorVisible lines editX editY scrollX scrollY w h).2 + h ∧
      (runesDisplayWidth (lines.getD editY.toNat [])
          (ensureCursorVisible lines editX editY scrollX scrollY w h).1 : Int) ≤
        runesDisplayWidth (lines.getD editY.toNat []) editX ∧
      (runesDisplayWidth (lines.getD editY.toNat []) editX : Int) ≤
        (runesDisplayWidth (lines.getD editY.toNat [])
          (ensureCursorVisible lines editX editY scrollX scrollY w h).1 : Int) +
          w := by
  have hv := vScroll_bounds editY scrollY h hh hy0
  have hho := hScroll_bounds (lines.getD editY.toNat []) editX scrollX w hw hx0
  unfold ensureCursorVisible
  rw [if_neg (by omega : ¬ (w < 1)), if_neg (by omega : ¬ (h < 1)),
    if_neg (by omega : ¬ (editY < 0 ∨ editY ≥ (lines.length : Int)))]
  exact ⟨hv.1, hv.2, hho.1, hho.2⟩

/-- C2 counterexample: for the buffer `["a你b"]` (the middle glyph is
double-width), cursor at rune index 3, zero scroll, editor width 3 and
height 1, the resulting horizontal scroll is rune index 1, and the cursor's
display column 4 does **not** lie in the half-open window
`[scrollDisp, scrollDisp + width) = [1, 4)` the claim requires — the wide
glyph straddles the window edge. -/
theorem ensureCursorVisible_wide_glyph_counterexample :
    (ensureCursorVisible ["a你b".toList] 3 0 0 0 3 1).1 = 1 ∧
      runesDisplayWidth "a你b".toList 3 = 4 ∧
      runesDisplayWidth "a你b".toList 1 = 1 ∧
      (3 : Int) ≤ (("a你b".toList).length : Int) ∧
      ¬ ((runesDisplayWidth "a你b".toList 3 : Int) <
          (runesDisplayWidth "a你b".toList
            (ensureCursorVisible ["a你b".toList] 3 0 0 0 3 1).1 : Int) + 3) := by
  refine ⟨by decide, by decide, by decide, by decide, by decide⟩

/-- Witness for the amended C2 at Scenario A of §8: buffer `["hello"]`,
cursor at rune index 5, viewport width 3 — the bounds hold and the scroll
advances to rune index 3, leaving the cursor as the last visible cell. -/
theorem ensureCursorVisible_bounds_witness :
    ((ensureCursorVisible ["hello".toList] 5 0 0 0 3 1).2 ≤ 0 ∧
      (0 : Int) < (ensureCursorVisible ["hello".toList] 5 0 0 0 3 1).2 + 1 ∧
      (runesDisplayWidth (["hello".toList].getD (0 : Int).toNat [])
          (ensureCursorVisible ["hello".toList] 5 0 0 0 3 1).1 : Int) ≤
        runesDisplayWidth (["hello".toList].getD (0 : Int).toNat []) 5 ∧
      (runesDisplayWidth (["hello".toList].getD (0 : Int).toNat []) 5 : Int) ≤
        (runesDisplayWidth (["hello".toList].getD (0 : Int).toNat [])
          (ensureCursorVisible ["hello".toList] 5 0 0 0 3 1).1 : Int) + 3) ∧
      (ensureCursorVisible ["hello".toList] 5 0 0 0 3 1).1 = 3 := by
  refine ⟨ensureCursorVisible_bounds ["hello".toList] 5 0 0 0 3 1 (by decide)
    (by decide) (by decide) (by decide) (by decide), by decide⟩

/-! ## Go syntax highlighter (`highlightGoSyntaxLines`, src/main.go 569-753) -/

/-- The tcell styles the highlighter emits: comment green, string yellow,
keyword blue+bold, built-in type aqua, plain identifier and punctuation
white, number fuchsia. -/
inductive TStyle
  | green
  | yellow
  | blueBold
  | aqua
  | white
  | fuchsia
deriving DecidableEq

/-- A highlighter token (`hlToken` in the source): text plus style. -/
structure HlTok where
  text : List Char
  style : TStyle
deriving DecidableEq

/-- The persistent lexer state carried across lines: inside a double-quoted
string, inside a raw (backtick) string, inside a block comment, and the
escape flag of the double-quoted string. -/
structure HlState where
  inString : Bool
  inRawString : Bool
  inMultiComment : Bool
  inEscape : Bool
deriving DecidableEq

/-- Result of one inner scanning loop: the consumed runes, the remaining
runes, and whether the terminator was found. -/
structure ScanRes where
  consumed : List Char
  rest : List Char
  closed : Bool
deriving DecidableEq

/-- Embeds the block-comment terminator loop (`for i < len(runes) { if
runes[i]=='*' && runes[i+1]=='/' ... }`): scan for `*/`, consuming it. -/
def scanBlockEnd : List Char → ScanRes
  | [] => ⟨[], [], false⟩
  | c :: rest =>
    if c = '*' ∧ rest.head? = some '/' then ⟨['*', '/'], rest.tail, true⟩
    else
      let r := scanBlockEnd rest
      ⟨c :: r.consumed, r.rest, r.closed⟩

/-- Embeds the raw-string terminator loop: scan for a closing backtick,
consuming it. -/
def scanRawEnd : List Char → ScanRes
  | [] => ⟨[], [], false⟩
  | c :: rest =>
    if c = bt then ⟨[c], rest, true⟩
    else
      let r := scanRawEnd rest
      ⟨c :: r.consumed, r.rest, r.closed⟩

/-- Embeds the double-quoted-string terminator loop, with the escape flag:
an unescaped `"` closes (consuming it); a backslash toggles the escape flag,
which otherwise resets after each rune.  Returns the scan result and the
final escape flag. -/
def scanStringEnd : Bool → List Char → ScanRes × Bool
  | esc, [] => (⟨[], [], false⟩, esc)
  | esc, c :: rest =>
    if c = dq ∧ esc = false then (⟨[c], rest, true⟩, false)
    else
      let esc2 : Bool := c == bs && !esc
      let q := scanStringEnd esc2 rest
      (⟨c :: q.1.consumed, q.1.rest, q.1.closed⟩, q.2)

/-- Embeds the identifier-start test `(r >= 'a' && r <= 'z') || (r >= 'A' &&
r <= 'Z') || r == '_'`. -/
def isIdentStart (c : Char) : Bool :=
  decide (('a'.toNat ≤ c.toNat ∧ c.toNat ≤ 'z'.toNat) ∨
    ('A'.toNat ≤ c.toNat ∧ c.toNat ≤ 'Z'.toNat) ∨ c = '_')

/-- Embeds the identifier-continuation test (letters, digits, underscore). -/
def isIdentChar (c : Char) : Bool :=
  isIdentStart c || isDigitChar c

/-- Embeds the numeric-token continuation test: digits, `.`, `e`/`E` and the
sign characters (the deliberately over-greedy scanner of §4.4/§9). -/
def isNumChar (c : Char) : Bool :=
  isDigitChar c || c = '.' || c = 'e' || c = 'E' || c = '+' || c = '-'

/-- The fixed Go keyword set of the highlighter. -/
def goKeywords : List (List Char) :=
  ["break", "case", "chan", "const", "continue", "default", "defer", "else",
   "fallthrough", "for", "func", "go", "goto", "if", "import", "interface",
   "map", "package", "range", "return", "select", "struct", "switch", "type",
   "var"].map String.toList

/-- The fixed Go built-in type set of the highlighter. -/
def goTypes : List (List Char) :=
  ["bool", "byte", "complex64", "complex128", "error", "float32", "float64",
   "int", "int8", "int16", "int32", "int64", "rune", "string", "uint",
   "uint8", "uint16", "uint32", "uint64", "uintptr"].map String.toList

/-- Embeds one line of the highlighter's scanning loop (the body of the
`for i < len(runes)` loop of `highlightGoSyntaxLines`), with fuel bounding
the number of emitted tokens; every loop iteration consumes at least one
rune, so fuel `cs.length` always suffices.  Branches in source order:
block-comment / raw-string / string continuation, block-comment open,
line comment, raw-string open, string open, identifier, number,
single punctuation rune. -/
def scanLineAux : Nat → HlState → List Char → List HlTok × HlState
  | 0, st, _ => ([], st)
  | fuel + 1, st, cs =>
    match cs with
    | [] => ([], st)
    | c :: rest =>
      if st.inMultiComment then
        let r := scanBlockEnd (c :: rest)
        let p := scanLineAux fuel { st with inMultiComment := !r.closed } r.rest
        (⟨r.consumed, .green⟩ :: p.1, p.2)
      else if st.inRawString then
        let r := scanRawEnd (c :: rest)
        let p := scanLineAux fuel { st with inRawString := !r.closed } r.rest
        (⟨r.consumed, .yellow⟩ :: p.1, p.2)
      else if st.inString then
        let q := scanStringEnd st.inEscape (c :: rest)
        let p := scanLineAux fuel
          { st with inString := !q.1.closed, inEscape := q.2 } q.1.rest
        (⟨q.1.consumed, .yellow⟩ :: p.1, p.2)
      else if c = '/' ∧ rest.head? = some '*' then
        let r := scanBlockEnd rest.tail
        let p := scanLineAux fuel { st with inMultiComment := !r.closed } r.rest
        (⟨'/' :: '*' :: r.consumed, .green⟩ :: p.1, p.2)
      else if c = '/' ∧ rest.head? = some '/' then
        ([⟨c :: rest, .green⟩], st)
      else if c = bt then
        let r := scanRawEnd rest
        let p := scanLineAux fuel { st with inRawString := !r.closed } r.rest
        (⟨c :: r.consumed, .yellow⟩ :: p.1, p.2)
      else if c = dq then
        let q := scanStringEnd false rest
        let p := scanLineAux fuel
          { st with inString := !q.1.closed, inEscape := q.2 } q.1.rest
        (⟨c :: q.1.consumed, .yellow⟩ :: p.1, p.2)
      else if isIdentStart c then
        let word := (c :: rest).takeWhile isIdentChar
        let sty : TStyle :=
          if word ∈ goKeywords then .blueBold
          else if word ∈ goTypes then .aqua
          else .white
        let p := scanLineAux fuel st ((c :: rest).dropWhile isIdentChar)
        (⟨word, sty⟩ :: p.1, p.2)
      else if isDigitChar c then
        let p := scanLineAux fuel st ((c :: rest).dropWhile isNumChar)
        (⟨(c :: rest).takeWhile isNumChar, .fuchsia⟩ :: p.1, p.2)
      else
        let p := scanLineAux fuel st rest
        (⟨[c], .white⟩ :: p.1, p.2)

/-- One line of highlighting: run the scanning loop with sufficient fuel. -/
def highlightLine (st : HlState) (cs : List Char) : List HlTok × HlState :=
  scanLineAux cs.length st cs

/-- Embeds `highlightGoSyntaxLines` threading the persistent lexer state
from an arbitrary starting state across the lines. -/
def highlightGoSyntaxLinesFrom (st : HlState) :
    List (List Char) → List (List HlTok)
  | [] => []
  | l :: ls =>
    let p := highlightLine st l
    p.1 :: highlightGoSyntaxLinesFrom p.2 ls

/-- Embeds `highlightGoSyntaxLines` (src/main.go lines 569-753): highlight
all lines starting from the all-clear lexer state. -/
def highlightGoSyntaxLines (lines : List (List Char)) : List (List HlTok) :=
  highlightGoSyntaxLinesFrom ⟨false, false, false, false⟩ lines

/-- Concatenation of the text fields of a row of tokens. -/
def joinTokens (row : List HlTok) : List Char :=
  (row.map HlTok.text).flatten

theorem scanBlockEnd_spec (cs : List Char) :
    (scanBlockEnd cs).consumed ++ (scanBlockEnd cs).rest = cs := by
  induction cs with
  | nil => rfl
  | cons c rest ih =>
    unfold scanBlockEnd
    split
    · rename_i h
      obtain ⟨hc, hh⟩ := h
      subst hc
      cases rest with
      | nil => simp at hh
      | cons b t =>
        simp only [List.head?_cons, Option.some.injEq] at hh
        subst hh
        simp
    · simpa using ih

theorem scanBlockEnd_rest_le (cs : List Char) :
    (scanBlockEnd cs).rest.length ≤ cs.length := by
  have h : (scanBlockEnd cs).consumed.length + (scanBlockEnd cs).rest.length =
      cs.length := by
    rw [← List.length_append, scanBlockEnd_spec cs]
  omega

theorem scanBlockEnd_rest_lt (c : Char) (rest : List Char) :
    (scanBlockEnd (c :: rest)).rest.length < (c :: rest).length := by
  have h : (scanBlockEnd (c :: rest)).consumed.length +
      (scanBlockEnd (c :: rest)).rest.length = (c :: rest).length := by
    rw [← List.length_append, scanBlockEnd_spec (c :: rest)]
  have hne : (scanBlockEnd (c :: rest)).consumed ≠ [] := by
    unfold scanBlockEnd
    split
    · simp
    · simp
  have := List.length_pos.mpr hne
  omega

theorem scanRawEnd_spec (cs : List Char) :
    (scanRawEnd cs).consumed ++ (scanRawEnd cs).rest = cs := by
  induction cs with
  | nil => rfl
  | cons c rest ih =>
    unfold scanRawEnd
    split
    · simp
    · simpa using ih

theorem scanRawEnd_rest_le (cs : List Char) :
    (scanRawEnd cs).rest.length ≤ cs.length := by
  have h : (scanRawEnd cs).consumed.length + (scanRawEnd cs).rest.length =
      cs.length := by
    rw [← List.length_append, scanRawEnd_spec cs]
  omega

theorem scanRawEnd_rest_lt (c : Char) (rest : List Char) :
    (scanRawEnd (c :: rest)).rest.length < (c :: rest).length := by
  have h : (scanRawEnd (c :: rest)).consumed.length +
      (scanRawEnd (c :: rest)).rest.length = (c :: rest).length := by
    rw [← List.length_append, scanRawEnd_spec (c :: rest)]
  have hne : (scanRawEnd (c :: rest)).consumed ≠ [] := by
    unfold scanRawEnd
    split
    · simp
    · simp
  have := List.length_pos.mpr hne
  omega

theorem scanStringEnd_spec (cs : List Char) : ∀ esc : Bool,
    (scanStringEnd esc cs).1.consumed ++ (scanStringEnd esc cs).1.rest = cs := by
  induction cs with
  | nil => intro esc; rfl
  | cons c rest ih =>
    intro esc
    unfold scanStringEnd
    split
    · simp
    · simpa using ih _

theorem scanStringEnd_rest_le (cs : List Char) (esc : Bool) :
    (scanStringEnd esc cs).1.rest.length ≤ cs.length := by
  have h : (scanStringEnd esc cs).1.consumed.length +
      (scanStringEnd esc cs).1.rest.length = cs.length := by
    rw [← List.length_append, scanStringEnd_spec cs esc]
  omega

theorem scanStringEnd_rest_lt (c : Char) (rest : List Char) (esc : Bool) :
    (scanStringEnd esc (c :: rest)).1.rest.length < (c :: rest).length := by
  have h : (scanStringEnd esc (c :: rest)).1.consumed.length +
      (scanStringEnd esc (c :: rest)).1.rest.length = (c :: rest).length := by
    rw [← List.length_append, scanStringEnd_spec (c :: rest) esc]
  have hne : (scanStringEnd esc (c :: rest)).1.consumed ≠ [] := by
    unfold scanStringEnd
    split
    · simp
    · simp
  have := List.length_pos.mpr hne
  omega

theorem isIdentStart_isIdentChar {c : Char} (h : isIdentStart c = true) :
    isIdentChar c = true := by
  simp [isIdentChar, h]

theorem isDigitChar_isNumChar {c : Char} (h : isDigitChar c = true) :
    isNumChar c = true := by
  simp [isNumChar, h]

theorem joinTokens_cons (tok : HlTok) (row : List HlTok) :
    joinTokens (tok :: row) = tok.text ++ joinTokens row := by
  simp [joinTokens]

/-- Core lossless-tokenization lemma: with enough fuel, the concatenated
token texts of one scanned line reproduce the line, from every lexer
state. -/
theorem scanLineAux_join (fuel : Nat) :
    ∀ (st : HlState) (cs : List Char), cs.length ≤ fuel →
      joinTokens (scanLineAux fuel st cs).1 = cs := by
  induction fuel with
  | zero =>
    intro st cs h
    have hnil : cs = [] := List.length_eq_zero.mp (Nat.le_zero.mp h)
    subst hnil
    rfl
  | succ fuel ih =>
    intro st cs h
    match cs with
    | [] => rfl
    | c :: rest =>
      simp only [List.length_cons] at h
      have hr : rest.length ≤ fuel := by omega
      by_cases h1 : st.inMultiComment = true
      · have hlt := scanBlockEnd_rest_lt c rest
        simp only [List.length_cons] at hlt
        simp only [scanLineAux, h1, eq_self_iff_true, if_true]
        rw [joinTokens_cons, ih _ _ (by omega)]
        exact scanBlockEnd_spec (c :: rest)
      · by_cases h2 : st.inRawString = true
        · have hlt := scanRawEnd_rest_lt c rest
          simp only [List.length_cons] at hlt
          simp only [scanLineAux, h1, h2, Bool.false_eq_true, eq_self_iff_true, if_true, if_false]
          rw [joinTokens_cons, ih _ _ (by omega)]
          exact scanRawEnd_spec (c :: rest)
        · by_cases h3 : st.inString = true
          · have hlt := scanStringEnd_rest_lt c rest st.inEscape
            simp only [List.length_cons] at hlt
            simp only [scanLineAux, h1, h2, h3, Bool.false_eq_true, eq_self_iff_true, if_true, if_false]
            rw [joinTokens_cons, ih _ _ (by omega)]
            exact scanStringEnd_spec (c :: rest) st.inEscape
          · by_cases h4 : c = '/' ∧ rest.head? = some '*'
            · obtain ⟨hc, hh⟩ := h4
              subst hc
              cases rest with
              | nil => simp at hh
              | cons b t =>
                simp only [List.head?_cons, Option.some.injEq] at hh
                subst hh
                have hle := scanBlockEnd_rest_le t
                simp only [List.length_cons] at h
                simp only [scanLineAux, h1, h2, h3, Bool.false_eq_true, if_false,
                  List.head?_cons, List.tail_cons, and_true, eq_self_iff_true,
                  if_true, if_pos rfl]
                rw [joinTokens_cons, ih _ _ (by omega)]
                have := scanBlockEnd_spec t
                simp only [HlTok.text]
                rw [List.cons_append, List.cons_append, this]
            · by_cases h5 : c = '/' ∧ rest.head? = some '/'
              · simp only [scanLineAux, h1, h2, h3, h4, h5, Bool.false_eq_true, if_false, eq_self_iff_true, if_true]
                simp [joinTokens]
              · by_cases h6 : c = bt
                · subst h6
                  have hle := scanRawEnd_rest_le rest
                  simp only [scanLineAux, h1, h2, h3, h4, h5, Bool.false_eq_true,
                    if_false, eq_self_iff_true, if_true]
                  rw [joinTokens_cons, ih _ _ (by omega)]
                  simp only [HlTok.text]
                  rw [List.cons_append, scanRawEnd_spec rest]
                · by_cases h7 : c = dq
                  · subst h7
                    have hle := scanStringEnd_rest_le rest false
                    simp only [scanLineAux, h1, h2, h3, h4, h5, h6,
                      Bool.false_eq_true, if_false, eq_self_iff_true, if_true]
                    rw [joinTokens_cons, ih _ _ (by omega)]
                    simp only [HlTok.text]
                    rw [List.cons_append, scanStringEnd_spec rest false]
                  · by_cases h8 : isIdentStart c = true
                    · have hdc : isIdentChar c = true := isIdentStart_isIdentChar h8
                      have hdrop : (c :: rest).dropWhile isIdentChar =
                          rest.dropWhile isIdentChar := by
                        rw [List.dropWhile_cons_of_pos hdc]
                      have hle : ((c :: rest).dropWhile isIdentChar).length ≤
                          rest.length := by
                        rw [hdrop]
                        exact (List.dropWhile_sublist _).length_le
                      simp only [scanLineAux, h1, h2, h3, h4, h5, h6, h7, h8,
                        Bool.false_eq_true, if_false, eq_self_iff_true, if_true]
                      rw [joinTokens_cons, ih _ _ (by omega)]
                      simp only [HlTok.text]
                      exact List.takeWhile_append_dropWhile _ _
                    · by_cases h9 : isDigitChar c = true
                      · have hdc : isNumChar c = true := isDigitChar_isNumChar h9
                        have hdrop : (c :: rest).dropWhile isNumChar =
                            rest.dropWhile isNumChar := by
                          rw [List.dropWhile_cons_of_pos hdc]
                        have hle : ((c :: rest).dropWhile isNumChar).length ≤
                            rest.length := by
                          rw [hdrop]
                          exact (List.dropWhile_sublist _).length_le
                        simp only [scanLineAux, h1, h2, h3, h4, h5, h6, h7, h8,
                          h9, Bool.false_eq_true, if_false, eq_self_iff_true,
                          if_true]
                        rw [joinTokens_cons, ih _ _ (by omega)]
                        simp only [HlTok.text]
                        exact List.takeWhile_append_dropWhile _ _
                      · simp only [scanLineAux, h1, h2, h3, h4, h5, h6, h7, h8,
                          h9, Bool.false_eq_true, if_false]
                        rw [joinTokens_cons, ih _ _ hr]
                        simp [HlTok.text]

theorem highlightFrom_lossless (st : HlState) (lines : List (List Char)) :
    (highlightGoSyntaxLinesFrom st lines).map joinTokens = lines := by
  induction lines generalizing st with
  | nil => rfl
  | cons l ls ih =>
    simp only [highlightGoSyntaxLinesFrom, List.map_cons, highlightLine]
    rw [scanLineAux_join l.length st l (le_refl _), ih]

/-- C1: lossless tokenization — for every list of input lines and every
lexer state carried over from earlier lines, concatenating the text fields
of the tokens `highlightGoSyntaxLines` emits for each line reproduces that
line exactly. -/
theorem highlightGoSyntaxLines_lossless (st : HlState)
    (lines : List (List Char)) :
    (highlightGoSyntaxLinesFrom st lines).map joinTokens = lines ∧
      (highlightGoSyntaxLines lines).map joinTokens = lines :=
  ⟨highlightFrom_lossless st lines, highlightFrom_lossless _ lines⟩

/-! ## Markdown preview renderer (`drawPreview`, part_000 lines 1179-1336) -/

/-- Line-level (block) style kinds of the preview renderer. -/
inductive MBase
  | normal
  | codeBlock
  | h1
  | h2
  | h3
  | quote
  | listItem
deriving DecidableEq

/-- Symbolic cell styles the preview renderer can emit: the line's base
style, the bold (emphasis) variant of the base style, the inline-code style,
the link style, and the list-marker override. -/
inductive MStyle
  | plain (b : MBase)
  | emph (b : MBase)
  | inlineCode
  | link
  | listMarker
deriving DecidableEq

/-- Whitespace class of the `\s` regex atom used by the list regular
expression. -/
def isRegexSpace (c : Char) : Bool :=
  c = ' ' || c = '\t' || c = '\n' || c = '\r' ||
    c = Char.ofNat 11 || c = Char.ofNat 12

/-- Embeds the list regular expression `^\s*([-+*]|\d+\.)\s+`: optional
leading whitespace, a bullet (`-`, `+`, `*`) or a decimal number followed by
`.`, then at least one whitespace character. -/
def listReMatch (s : List Char) : Bool :=
  let t := s.dropWhile isRegexSpace
  match t with
  | [] => false
  | c :: rest =>
    if c = '-' ∨ c = '+' ∨ c = '*' then
      match rest with
      | [] => false
      | d :: _ => isRegexSpace d
    else
      let ds := t.takeWhile isDigitChar
      if ds = [] then false
      else
        match t.drop ds.length with
        | '.' :: e :: _ => isRegexSpace e
        | _ => false

/-- Embeds `strings.TrimRight(line, "\r\n")`. -/
def trimCR (line : List Char) : List Char :=
  (line.reverse.dropWhile (fun c => c = '\n' || c = '\r')).reverse

/-- Embeds the fence test `strings.HasPrefix(trim, "```")`. -/
def isFence (trim : List Char) : Bool :=
  decide (trim.take 3 = [bt, bt, bt])

/-- Embeds `strings.Index(trim, "> ")` (first occurrence of the blockquote
marker). -/
def indexGtSpace : List Char → Option Nat
  | [] => none
  | c :: rest =>
    if c = '>' ∧ rest.head? = some ' ' then some 0
    else (indexGtSpace rest).map (· + 1)

/-- The space/tab test used when deciding emphasis-marker eligibility. -/
def isInlineSpace (c : Char) : Bool :=
  c = ' ' || c = '\t'

/-- The runes the inline state machines react to (emphasis markers, link
opener, and the list-marker bullets). -/
def inlineTrigger (c : Char) : Bool :=
  c = '*' || c = '_' || c = '[' || c = '-' || c = '+'

/-- Embeds the link lookahead of `drawPreview`: the first `]` after `idx`,
required to be immediately followed by `(`, and the first `)` after that;
`none` when the pattern is incomplete. -/
def findCharFrom (runes : List Char) (c : Char) (j : Nat) : Option Nat :=
  match (runes.drop j).findIdx? (fun x => x = c) with
  | some k => some (j + k)
  | none => none

/-- The `(closeIdx, parenClose)` pair of a complete `[text](url)` span
starting at `idx`, when present. -/
def linkSpan (runes : List Char) (idx : Nat) : Option (Nat × Nat) :=
  match findCharFrom runes ']' (idx + 1) with
  | none => none
  | some ci =>
    if ci + 1 < runes.length ∧ runes.getD (ci + 1) ' ' = '(' then
      match findCharFrom runes ')' (ci + 2) with
      | none => none
      | some pc => some (ci, pc)
    else none

/-- Embeds the link-text emission loop of `drawPreview`: emit link-styled
cells of the link text while they fit into the remaining width budget,
returning the cells and the advanced column count. -/
def renderLinkCells (budget : Nat) :
    List Char → Nat → List (Char × MStyle) × Nat
  | [], linkCol => ([], linkCol)
  | lr :: tl, linkCol =>
    if linkCol < budget then
      if linkCol + runeWidth lr > budget then ([], linkCol)
      else
        let p := renderLinkCells budget tl (linkCol + runeWidth lr)
        ((lr, MStyle.link) :: p.1, p.2)
    else ([], linkCol)

/-- The per-rune style choice of `drawPreview` (inline code wins, then
emphasis over the base style), with the list-marker override for a bullet at
index 0 of a list line. -/
def inlineStyle (base : MBase) (inInline inEmph : Bool) (r : Char) (idx : Nat)
    (runes : List Char) : MStyle :=
  let cur : MStyle :=
    if inInline = true then .inlineCode
    else if inEmph = true then .emph base
    else .plain base
  if (r = '-' ∨ r = '+' ∨ r = '*') ∧ idx = 0 ∧ listReMatch runes = true then
    .listMarker
  else cur

/-- Embeds the inline rendering loop of `drawPreview` (part_000 lines
1252-1333): left-to-right over the prefix-stripped line starting at the
horizontal scroll offset, toggling inline code on backticks (outside fenced
blocks), toggling emphasis on eligible `*`/`_`, consuming `[text](url)`
spans, and emitting styled cells while they fit in the viewport width.
Fuel bounds the iteration count; every step advances the index, so fuel
`runes.length + 1` always suffices. -/
def inlineLoopAux (runes : List Char) (width : Nat) (inCodeBlock : Bool)
    (base : MBase) :
    Nat → Nat → Nat → Bool → Bool → List (Char × MStyle)
  | 0, _, _, _, _ => []
  | fuel + 1, idx, col, inInline, inEmph =>
    if idx < runes.length ∧ col < width then
      let r := runes.getD idx ' '
      if r = bt ∧ inCodeBlock = false then
        inlineLoopAux runes width inCodeBlock base fuel (idx + 1) col
          (!inInline) inEmph
      else if (r = '*' ∨ r = '_') ∧ inInline = false ∧
          ¬ (idx = 0 ∨ isInlineSpace (runes.getD (idx - 1) ' ') = true) ∧
          ¬ (runes.length ≤ idx + 1 ∨
              isInlineSpace (runes.getD (idx + 1) ' ') = true) then
        inlineLoopAux runes width inCodeBlock base fuel (idx + 1) col
          inInline (!inEmph)
      else if r = '[' ∧ inInline = false then
        match linkSpan runes idx with
        | some cipc =>
          let linkText := (runes.drop (idx + 1)).take (cipc.1 - (idx + 1))
          let p := renderLinkCells (width - col) linkText 0
          p.1 ++ inlineLoopAux runes width inCodeBlock base fuel
            (cipc.2 + 1) (col + p.2) inInline inEmph
        | none =>
          if col + runeWidth r > width then []
          else (r, inlineStyle base inInline inEmph r idx runes) ::
            inlineLoopAux runes width inCodeBlock base fuel (idx + 1)
              (col + runeWidth r) inInline inEmph
      else
        if col + runeWidth r > width then []
        else (r, inlineStyle base inInline inEmph r idx runes) ::
          inlineLoopAux runes width inCodeBlock base fuel (idx + 1)
            (col + runeWidth r) inInline inEmph
    else []

/-- Embeds one line of `drawPreview`: fence lines toggle the fenced-code
flag and emit nothing (`none`); other lines are classified (code block wins,
then headings 1-3, blockquote, list), prefix-stripped, and inline-rendered
from the horizontal scroll offset. -/
def renderPreviewLine (width scrollX : Nat) (inCB : Bool) (line : List Char) :
    Option (List (Char × MStyle)) × Bool :=
  let trim0 := trimCR line
  if isFence trim0 then (none, !inCB)
  else
    let pr : List Char × MBase :=
      if inCB then (trim0, .codeBlock)
      else if trim0.take 2 = ['#', ' '] then (trim0.drop 2, .h1)
      else if trim0.take 3 = ['#', '#', ' '] then (trim0.drop 3, .h2)
      else if trim0.take 4 = ['#', '#', '#', ' '] then (trim0.drop 4, .h3)
      else if (trim0.dropWhile (fun c => c = ' ')).take 2 = ['>', ' '] then
        (match indexGtSpace trim0 with
         | some i => trimSpace (trim0.drop (i + 2))
         | none => trim0,
         .quote)
      else if listReMatch trim0 then (trim0, .listItem)
      else (trim0, .normal)
    (some (inlineLoopAux pr.1 width inCB pr.2 (pr.1.length + 1) scrollX 0
      false false), inCB)

/-- Embeds the line loop of `drawPreview`: lines above the vertical scroll
offset are skipped entirely (producing nothing and, notably, not toggling
the fence flag); the loop stops at the bottom of the viewport; every other
line is rendered, threading the fenced-code flag. -/
def drawPreviewGo (width scrollX scrollY height : Nat) :
    Nat → Bool → List (List Char) → List (Option (List (Char × MStyle)))
  | _, _, [] => []
  | i, inCB, l :: ls =>
    if i < scrollY then
      none :: drawPreviewGo width scrollX scrollY height (i + 1) inCB ls
    else if height ≤ i - scrollY then []
    else
      let p := renderPreviewLine width scrollX inCB l
      p.1 :: drawPreviewGo width scrollX scrollY height (i + 1) p.2 ls

/-- Embeds a full `drawPreview` pass over the buffer lines, from line 0 with
the fenced-code flag clear. -/
def drawPreview (width scrollX scrollY height : Nat)
    (lines : List (List Char)) : List (Option (List (Char × MStyle))) :=
  drawPreviewGo width scrollX scrollY height 0 false lines

/-- One non-special scanning step inside a fenced code block: with the
inline-code and emphasis toggles off and the current rune not an emphasis
marker or link opener, the rune is emitted with its computed style. -/
theorem inlineLoopAux_codeBlock_step (runes : List Char) (width : Nat)
    (base : MBase) (fuel idx col : Nat) (inEmph : Bool)
    (h : idx < runes.length ∧ col < width)
    (hstar : runes.getD idx ' ' ≠ '*') (hund : runes.getD idx ' ' ≠ '_')
    (hbr : runes.getD idx ' ' ≠ '[') :
    inlineLoopAux runes width true base (fuel + 1) idx col false inEmph =
      (if col + runeWidth (runes.getD idx ' ') > width then []
       else (runes.getD idx ' ',
          inlineStyle base false inEmph (runes.getD idx ' ') idx runes) ::
        inlineLoopAux runes width true base fuel (idx + 1)
          (col + runeWidth (runes.getD idx ' ')) false inEmph) := by
  conv_lhs => rw [inlineLoopAux]
  rw [if_pos h]
  dsimp only
  rw [if_neg (by rintro ⟨-, hh⟩; exact absurd hh (by decide)),
    if_neg (by rintro ⟨hm | hm, -⟩
               · exact hstar hm
               · exact hund hm),
    if_neg (by rintro ⟨hm, -⟩; exact hbr hm)]

/-- Every cell emitted for a (non-fence) line scanned inside a fenced code
block whose runes contain none of the inline-trigger characters carries the
plain code-block style. -/
theorem inlineLoopAux_codeBlock_cells (runes : List Char) (width : Nat)
    (base : MBase) (htr : ∀ c ∈ runes, inlineTrigger c = false) :
    ∀ (fuel idx col : Nat),
      ∀ cell ∈ inlineLoopAux runes width true base fuel idx col false false,
        cell.2 = MStyle.plain base := by
  intro fuel
  induction fuel with
  | zero =>
    intro idx col cell hc
    simp [inlineLoopAux] at hc
  | succ fuel ih =>
    intro idx col cell hc
    by_cases h : idx < runes.length ∧ col < width
    · have hmem : runes.getD idx ' ' ∈ runes := by
        rw [List.getD_eq_getElem runes ' ' h.1]
        exact List.getElem_mem h.1
      have htrig := htr _ hmem
      simp only [inlineTrigger, Bool.or_eq_false_iff,
        decide_eq_false_iff_not] at htrig
      obtain ⟨⟨⟨⟨hstar, hund⟩, hbr⟩, hdash⟩, hplus⟩ := htrig
      rw [inlineLoopAux_codeBlock_step runes width base fuel idx col false h
        hstar hund hbr] at hc
      split at hc
      · simp at hc
      · rcases List.mem_cons.mp hc with hceq | htail
        · rw [hceq]
          show inlineStyle base false false (runes.getD idx ' ') idx runes =
            MStyle.plain base
          unfold inlineStyle
          rw [if_neg (by rintro ⟨hm | hm | hm, -, -⟩
                         · exact hdash hm
                         · exact hplus hm
                         · exact hstar hm)]
          rfl
        · exact ih (idx + 1) (col + runeWidth (runes.getD idx ' ')) cell htail
    · rw [inlineLoopAux, if_neg h] at hc
      simp at hc

/-- Fence lines emit nothing and toggle the fenced-code flag. -/
theorem renderPreviewLine_fence (w sx : Nat) (inCB : Bool) (l : List Char)
    (hf : isFence (trimCR l) = true) :
    renderPreviewLine w sx inCB l = (none, !inCB) := by
  unfold renderPreviewLine
  rw [if_pos hf]

/-- A non-fence line scanned inside a fenced code block leaves the flag set
and, when it contains no inline-trigger characters, every cell it renders
carries the plain code-block style. -/
theorem renderPreviewLine_codeBlock (w sx : Nat) (l : List Char)
    (hnf : isFence (trimCR l) = false)
    (htr : ∀ c ∈ trimCR l, inlineTrigger c = false) :
    (renderPreviewLine w sx true l).2 = true ∧
      ∀ cell ∈ ((renderPreviewLine w sx true l).1.getD []),
        cell.2 = MStyle.plain MBase.codeBlock := by
  unfold renderPreviewLine
  rw [if_neg (by simp [hnf])]
  refine ⟨rfl, ?_⟩
  intro cell hc
  dsimp only at hc
  rw [if_pos rfl] at hc
  simp only [Option.getD_some] at hc
  exact inlineLoopAux_codeBlock_cells (trimCR l) w MBase.codeBlock htr _ _ _
    cell hc

/-- C7 (amended): in a preview render pass with no vertical scroll, every
processed line whose (right-trimmed) content starts with the fence marker
toggles the fenced-code flag and produces no visible output; a line between
fences is rendered in the code-block base style — every cell of such a line
carries the code-block style provided the line contains none of the
inline-trigger characters (`*`, `_`, `[`, `-`, `+`), which the still-active
inline emphasis/link/list-marker machinery would style specially; in
particular, for the input `["```", "code", "```"]` both fence lines render
nothing and `"code"` renders entirely with the code-block style. -/
theorem drawPreview_fence_behavior :
    (∀ (w sx : Nat) (inCB : Bool) (l : List Char),
        isFence (trimCR l) = true →
        renderPreviewLine w sx inCB l = (none, !inCB)) ∧
      (∀ (w sx : Nat) (l : List Char), isFence (trimCR l) = false →
        (∀ c ∈ trimCR l, inlineTrigger c = false) →
        (renderPreviewLine w sx true l).2 = true ∧
          ∀ cell ∈ ((renderPreviewLine w sx true l).1.getD []),
            cell.2 = MStyle.plain MBase.codeBlock) ∧
      drawPreview 80 0 0 10 (List.map String.toList ["```", "code", "```"]) =
        [none,
          some [('c', MStyle.plain MBase.codeBlock),
            ('o', MStyle.plain MBase.codeBlock),
            ('d', MStyle.plain MBase.codeBlock),
            ('e', MStyle.plain MBase.codeBlock)],
          none] :=
  ⟨renderPreviewLine_fence, renderPreviewLine_codeBlock, by decide⟩

/-- Witness for the amended C7: a fence line with a language tag toggles the
flag and emits nothing, and the cells of `"code"` inside a fence all carry
the code-block style. -/
theorem drawPreview_fence_behavior_witness :
    renderPreviewLine 80 0 false ("```go".toList) = (none, true) ∧
      ∀ cell ∈ ((renderPreviewLine 80 0 true ("code".toList)).1.getD []),
        cell.2 = MStyle.plain MBase.codeBlock := by
  have h := drawPreview_fence_behavior
  exact ⟨h.1 80 0 false _ (by decide), (h.2.1 80 0 _ (by decide) (by decide)).2⟩

/-- C7 counterexample: a line lying between fences is **not** always
rendered with the code-block style — for `["```", "- x", "```"]` the leading
`-` of the middle line is rendered with the list-marker style, because the
list-marker override of the inline renderer still fires inside a fenced
block. -/
theorem fenced_line_not_all_codeBlock :
    drawPreview 80 0 0 10 (List.map String.toList ["```", "- x", "```"]) =
      [none,
        some [('-', MStyle.listMarker), (' ', MStyle.plain MBase.codeBlock),
          ('x', MStyle.plain MBase.codeBlock)],
        none] ∧
      MStyle.listMarker ≠ MStyle.plain MBase.codeBlock := by
  exact ⟨by decide, by decide⟩

/-- C10: inside an active inline-code span (scanning with the inline-code
toggle on, at a position after the opening backtick), the renderer treats
`*`, `_` and `[` as literal characters rendered with the inline-code style:
the step emits exactly that rune with the inline-code style and continues
with the emphasis toggle and scan position advanced by one — the emphasis
and link machinery does not fire. -/
theorem inlineCode_disables_inline_machinery (runes : List Char)
    (width : Nat) (cb : Bool) (base : MBase) (fuel idx col : Nat)
    (inEmph : Bool) (h0 : 0 < idx) (h1 : idx < runes.length)
    (h2 : col < width)
    (h3 : runes.getD idx ' ' = '*' ∨ runes.getD idx ' ' = '_' ∨
      runes.getD idx ' ' = '[')
    (h4 : col + runeWidth (runes.getD idx ' ') ≤ width) :
    inlineLoopAux runes width cb base (fuel + 1) idx col true inEmph =
      (runes.getD idx ' ', MStyle.inlineCode) ::
        inlineLoopAux runes width cb base fuel (idx + 1)
          (col + runeWidth (runes.getD idx ' ')) true inEmph := by
  conv_lhs => rw [inlineLoopAux]
  rw [if_pos ⟨h1, h2⟩]
  dsimp only
  have hbt : ¬ (runes.getD idx ' ' = bt ∧ cb = false) := by
    intro hh
    rcases h3 with h | h | h <;> rw [h] at hh <;>
      exact absurd hh.1 (by decide)
  rw [if_neg hbt, if_neg (by simp), if_neg (by simp),
    if_neg (by omega : ¬ col + runeWidth (runes.getD idx ' ') > width)]
  have hsty : inlineStyle base true inEmph (runes.getD idx ' ') idx runes =
      MStyle.inlineCode := by
    unfold inlineStyle
    rw [if_neg (by rintro ⟨-, h0eq, -⟩; omega)]
    rfl
  rw [hsty]

/-- Witness for C10 at the line `` a`*b` ``: at index 2 (inside the span
opened by the backtick at index 1) the `*` is emitted literally with the
inline-code style. -/
theorem inlineCode_disables_inline_machinery_witness :
    inlineLoopAux ("a`*b`".toList) 80 false MBase.normal (5 + 1) 2 1 true
        false =
      (("a`*b`".toList).getD 2 ' ', MStyle.inlineCode) ::
        inlineLoopAux ("a`*b`".toList) 80 false MBase.normal 5 (2 + 1)
          (1 + runeWidth (("a`*b`".toList).getD 2 ' ')) true false :=
  inlineCode_disables_inline_machinery ("a`*b`".toList) 80 false MBase.normal
    5 2 1 false (by decide) (by decide) (by decide) (by decide) (by decide)

end Eddy
